import Mathlib

/-!
Verification of the record/geometry conversion layer of the `rising`
preprocessing repository, against its two source files
`rising/transforms/functional/utility.py` and `phdata/transforms/format.py`.

The shallow embedding below follows the Python source:

* A Python `dict` is modelled as an association list `Dict V := List (String × V)`
  whose well-formedness invariant is that its keys are pairwise distinct.
  `dlookup`, `dinsert`, `derase` and `dpop` model `d[k]`, `d[k] = v`,
  deletion of the entry (as performed by `dict.pop`) and `dict.pop(k)`.
* A dense tensor is modelled either as a total function from integer
  coordinate vectors to values (for the painting/remapping functions,
  where only pointwise reads and masked writes occur), or as the finite
  list of its (coordinate, label) cells (for `seg_to_box`, which must
  enumerate occupied positions).
* Python exceptions are modelled with `Except String`.
* In-place mutation of a caller-owned `dict` is modelled by threading an
  explicit heap `Nat → Dict V`: a Python object reference becomes a `Nat`
  address, and `pop_keys` / `filter_keys` return the updated heap together
  with the reference they return.
-/

namespace Rising

variable {V : Type}

/-- A Python `dict` with `String` keys: an association list in insertion
order. The `dict` invariant (unique keys) is carried as a hypothesis
`(dkeys d).Nodup` where proofs need it. -/
abbrev Dict (V : Type) : Type := List (String × V)

/-- The keys of a record, in insertion order (`data.keys()`). -/
def dkeys (d : Dict V) : List String := d.map Prod.fst

/-- Dictionary lookup `d[k]`: the value at the first entry with key `k`,
if any. -/
def dlookup : Dict V → String → Option V
  | [], _ => none
  | (k', v) :: d, k => if k' = k then some v else dlookup d k

/-- Dictionary assignment `d[k] = v`: replaces the value at an existing
key in place, otherwise appends the new entry (Python insertion order). -/
def dinsert : Dict V → String → V → Dict V
  | [], k, v => [(k, v)]
  | (k', v') :: d, k, v =>
    if k' = k then (k, v) :: d else (k', v') :: dinsert d k v

/-- Removal of the entry with key `k` (the deletion half of `dict.pop`):
drops the first entry with that key. -/
def derase : Dict V → String → Dict V
  | [], _ => []
  | (k', v') :: d, k => if k' = k then d else (k', v') :: derase d k

/-- `data.pop(k)` without a default: returns the stored value and the
record without that entry, or `none` (Python raises `KeyError`). -/
def dpop (d : Dict V) (k : String) : Option (V × Dict V) :=
  match dlookup d k with
  | some v => some (v, derase d k)
  | none => none

/-! ## `phdata/transforms/format.py` -/

/-- `MapToSeq.forward` (the transform is parameterized by `self.keys`):
`tuple(data[k] for k in keys)`.  A missing key raises `KeyError`. -/
def MapToSeq.forward (keys : List String) (data : Dict V) : Except String (List V) :=
  match keys with
  | [] => .ok []
  | k :: ks =>
    match dlookup data k with
    | some v => (MapToSeq.forward ks data).map (fun t => v :: t)
    | none => .error "KeyError"

/-- The element-building loop of `SeqToMap.forward`: the dict comprehension
evaluates `data[idx]` for each key in order (raising `IndexError` once
`idx` falls outside `data`) and assigns into the fresh dict. -/
def seqToMapLoop (data : List V) : List String → Nat → Dict V → Except String (Dict V)
  | [], _, acc => .ok acc
  | k :: ks, i, acc =>
    match data.get? i with
    | some v => seqToMapLoop data ks (i + 1) (dinsert acc k v)
    | none => .error "IndexError"

/-- `SeqToMap.forward` (parameterized by `self.keys`): the dict
comprehension over `enumerate(keys)`, reading `data[idx]`. -/
def SeqToMap.forward (keys : List String) (data : List V) : Except String (Dict V) :=
  seqToMapLoop data keys 0 []

/-! ## `rising/transforms/functional/utility.py`: `box_to_seg`

A tensor written to by slice assignment is modelled as a total function
from integer coordinate vectors to values; the spatial extent declared by
`shape` is tracked through `inShape` hypotheses in the theorems. `dtype`
and `device` only select the runtime representation and are dropped. -/

/-- A dense volume: value at each integer coordinate vector. -/
abbrev Vol : Type := List Int → Int

/-- The coordinate of `p` at the axis `j` places from the end (`j = 1` is
the last axis), matching how `out[..., a:b, c:d]` addresses trailing axes. -/
def coordFromEnd (p : List Int) (j : Nat) : Int := p.getD (p.length - j) 0

/-- Whether position `p` lies in the inclusive hyper-rectangle of `box`:
a 4-box `(dim0_min, dim1_min, dim0_max, dim1_max)` constrains the last two
axes, a 6-box additionally `(dim2_min, dim2_max)` the last three, exactly
the regions addressed by the two slice assignments in `box_to_seg`. -/
def boxCovers (box : List Int) (p : List Int) : Bool :=
  if box.length = 4 then
    decide (2 ≤ p.length) &&
    decide (box.getD 0 0 ≤ coordFromEnd p 2) && decide (coordFromEnd p 2 ≤ box.getD 2 0) &&
    decide (box.getD 1 0 ≤ coordFromEnd p 1) && decide (coordFromEnd p 1 ≤ box.getD 3 0)
  else if box.length = 6 then
    decide (3 ≤ p.length) &&
    decide (box.getD 0 0 ≤ coordFromEnd p 3) && decide (coordFromEnd p 3 ≤ box.getD 2 0) &&
    decide (box.getD 1 0 ≤ coordFromEnd p 2) && decide (coordFromEnd p 2 ≤ box.getD 3 0) &&
    decide (box.getD 4 0 ≤ coordFromEnd p 1) && decide (coordFromEnd p 1 ≤ box.getD 5 0)
  else false

/-- One slice assignment `out[..., min:max+1, ...] = idx`: every position
inside the box takes the label, all others keep their value. -/
def paint (box : List Int) (idx : Int) (v : Vol) : Vol :=
  fun p => if boxCovers box p then idx else v p

/-- The `for _idx, box in enumerate(boxes, 1)` loop of `box_to_seg`: paints
each box with its 1-based index, or raises `TypeError` on a box whose
length is neither 4 nor 6. -/
def boxToSegLoop : List (List Int) → Nat → Vol → Except String Vol
  | [], _, out => .ok out
  | b :: bs, idx, out =>
    if b.length = 4 ∨ b.length = 6 then
      boxToSegLoop bs (idx + 1) (paint b (idx : Int) out)
    else .error "Boxes must have length 4 (2D) or 6 (3D)"

set_option linter.unusedVariables false in
/-- `box_to_seg`: when `out` is `None` a zero volume of the given `shape`
is allocated (`torch.zeros(*shape)` — zero at every coordinate; the extent
given by `shape` is enforced in the theorems via `inShape`), otherwise the
caller-supplied buffer is used as is; then the boxes are painted in input
order. -/
def box_to_seg (boxes : List (List Int)) (shape : List Nat) (out : Option Vol) :
    Except String Vol :=
  boxToSegLoop boxes 1
    (match out with
     | some o => o
     | none => fun _ => 0)

/-- Whether `p` is a coordinate vector inside the grid described by
`shape`: same rank, and each coordinate in `[0, extent)`. -/
def inShape (shape : List Nat) (p : List Int) : Bool :=
  (shape.length = p.length : Bool) &&
  (List.zipWith (fun (n : Nat) (x : Int) => decide (0 ≤ x) && decide (x < (n : Int))) shape p).all
    (fun b => b)

/-- Whether a box is well formed for a grid of the given `shape`:
coordinate count 4 or 6, `0 ≤ min ≤ max` per axis, and each axis range
inside the extent of the axis it addresses (counted from the end). -/
def wellFormedBox (shape : List Nat) (box : List Int) : Bool :=
  if box.length = 4 then
    decide (2 ≤ shape.length) &&
    decide (0 ≤ box.getD 0 0) && decide (box.getD 0 0 ≤ box.getD 2 0) &&
    decide (box.getD 2 0 < (shape.getD (shape.length - 2) 0 : Int)) &&
    decide (0 ≤ box.getD 1 0) && decide (box.getD 1 0 ≤ box.getD 3 0) &&
    decide (box.getD 3 0 < (shape.getD (shape.length - 1) 0 : Int))
  else if box.length = 6 then
    decide (3 ≤ shape.length) &&
    decide (0 ≤ box.getD 0 0) && decide (box.getD 0 0 ≤ box.getD 2 0) &&
    decide (box.getD 2 0 < (shape.getD (shape.length - 3) 0 : Int)) &&
    decide (0 ≤ box.getD 1 0) && decide (box.getD 1 0 ≤ box.getD 3 0) &&
    decide (box.getD 3 0 < (shape.getD (shape.length - 2) 0 : Int)) &&
    decide (0 ≤ box.getD 4 0) && decide (box.getD 4 0 ≤ box.getD 5 0) &&
    decide (box.getD 5 0 < (shape.getD (shape.length - 1) 0 : Int))
  else false

/-- The 1-based index of the last box (in input order, numbering starting
at `idx`) whose inclusive hyper-rectangle contains `p`, and `0` when no
box covers `p`. -/
def lastCover : List (List Int) → Nat → List Int → Nat
  | [], _, _ => 0
  | b :: bs, idx, p =>
    let rest := lastCover bs (idx + 1) p
    if rest ≠ 0 then rest
    else if boxCovers b p then idx else 0

/-! ## `rising/transforms/functional/utility.py`: `seg_to_box`

`seg_to_box` must enumerate the occupied positions of each label
(`(seg == idx).nonzero()`), so here a segmentation tensor is modelled as
the finite list of its cells: one `(coordinate vector, label)` pair per
grid position. -/

/-- One grid cell of a dense segmentation: its coordinate vector and the
label stored there. -/
abbrev Cell : Type := List Nat × Nat

/-- `seg.max()`: the largest label in the volume (`0` on an all-background
volume, where the decode loop does nothing). -/
def segMax (seg : List Cell) : Nat := seg.foldl (fun m c => max m c.2) 0

/-- `(seg == idx).nonzero()`: the coordinate vectors of the positions
holding label `idx`. -/
def positionsOf (seg : List Cell) (idx : Nat) : List (List Nat) :=
  (seg.filter (fun c => c.2 = idx)).map Prod.fst

/-- `instance_map.min(dim=0)[0]` / `.max(dim=0)[0]`: the componentwise
reduction of a stack of coordinate vectors; `none` on an empty stack,
where torch raises a runtime error. -/
def compReduce (f : Nat → Nat → Nat) : List (List Nat) → Option (List Nat)
  | [] => none
  | p :: ps => some (ps.foldl (fun a q => List.zipWith f a q) p)

/-- `[c for cv in zip(mins, maxs) for c in cv]`: interleaves the two
lists pairwise. -/
def interleave : List Nat → List Nat → List Nat
  | a :: as, b :: bs => a :: b :: interleave as bs
  | _, _ => []

/-- The box built from the componentwise minima and maxima of one
instance: entries `-dim` and `-dim+1` of each, then for 3D the
interleaved trailing pairs `zip(mins[-dim+2:], maxs[-dim+2:])`. -/
def mkBox (dim : Nat) (mins maxs : List Nat) : List Nat :=
  let L := mins.length
  let box := [mins.getD (L - dim) 0, mins.getD (L - dim + 1) 0,
              maxs.getD (L - dim) 0, maxs.getD (L - dim + 1) 0]
  if 2 < dim then box ++ interleave (mins.drop (L - dim + 2)) (maxs.drop (L - dim + 2))
  else box

/-- The `for _idx in range(1, seg.max() + 1)` loop of `seg_to_box`,
counting `n` remaining labels starting at label `idx`: collects the box
of each label in order, or raises as torch does when a label has no
occupied positions (reduction over an empty `nonzero` result). -/
def segToBoxLoop (seg : List Cell) (dim : Nat) : Nat → Nat → Except String (List (List Nat))
  | _, 0 => .ok []
  | idx, n + 1 =>
    match compReduce min (positionsOf seg idx), compReduce max (positionsOf seg idx) with
    | some mins, some maxs =>
      (segToBoxLoop seg dim (idx + 1) n).map (fun bs => mkBox dim mins maxs :: bs)
    | _, _ => .error "cannot perform reduction over dimension of size 0"

/-- `seg_to_box`: one box per label value from `1` to `seg.max()`. -/
def seg_to_box (seg : List Cell) (dim : Nat) : Except String (List (List Nat)) :=
  segToBoxLoop seg dim 1 (segMax seg)

/-- Specification-side reading of the decode: the minimum, over the
positions holding label `k`, of the coordinate at axis `a`. -/
def specLo (seg : List Cell) (k a : Nat) : Nat :=
  (((positionsOf seg k).map (fun p => p.getD a 0)).min?).getD 0

/-- Specification-side reading of the decode: the corresponding maximum. -/
def specHi (seg : List Cell) (k a : Nat) : Nat :=
  (((positionsOf seg k).map (fun p => p.getD a 0)).max?).getD 0

/-- The box the specification describes for label `k`: per-axis minima
and maxima in the encode coordinate order
`(min0, min1, max0, max1[, min2, max2])`. -/
def specBox (seg : List Cell) (dim k : Nat) : List Nat :=
  if dim = 2 then [specLo seg k 0, specLo seg k 1, specHi seg k 0, specHi seg k 1]
  else [specLo seg k 0, specLo seg k 1, specHi seg k 0, specHi seg k 1,
        specLo seg k 2, specHi seg k 2]

/-! ## `rising/transforms/functional/utility.py`: `instance_to_semantic`

An instance volume is modelled as a function from positions (an arbitrary
index type, so the output has the same shape by construction) to labels;
the masked assignment `seg[instance == idx] = c` is a pointwise update. -/

/-- The `for idx, c in enumerate(cls, 1)` loop: each masked assignment
overwrites the positions holding instance label `idx` with class `c`. -/
def i2sLoop {α : Type} (inst : α → Nat) : List Int → Nat → (α → Int) → (α → Int)
  | [], _, seg => seg
  | c :: cs, idx, seg =>
    i2sLoop inst cs (idx + 1) (fun p => if inst p = idx then c else seg p)

/-- `instance_to_semantic`: starts from `torch.zeros_like(instance)` and
applies one masked assignment per class-map entry. The input volume is
read only. -/
def instance_to_semantic {α : Type} (inst : α → Nat) (cls : List Int) : α → Int :=
  i2sLoop inst cls 1 (fun _ => 0)

/-! ## `rising/transforms/functional/utility.py`: `pop_keys` and `filter_keys` -/

/-- The `keys` argument of `pop_keys` / `filter_keys`: either a predicate
over keys (`callable(keys)`) or an explicit key sequence. -/
inductive Selector where
  | pred (f : String → Bool)
  | explicit (ks : List String)

/-- The selector resolution at function entry:
`if callable(keys): keys = [k for k in data.keys() if keys(k)]`. -/
def resolveKeys (d : Dict V) (sel : Selector) : List String :=
  match sel with
  | .pred f => (dkeys d).filter f
  | .explicit ks => ks

/-- The `for k in keys: popped[k] = data.pop(k)` loop: the record shrinks
entry by entry while `popped` grows; a missing key raises `KeyError`. -/
def popLoop : Dict V → List String → Dict V → Except String (Dict V × Dict V)
  | d, [], popped => .ok (d, popped)
  | d, k :: ks, popped =>
    match dpop d k with
    | some (v, d') => popLoop d' ks (dinsert popped k v)
    | none => .error "KeyError"

/-- `pop_keys` on the value of the record: returns the shrunk record and,
when `return_popped` is set, the popped entries. -/
def pop_keys (data : Dict V) (keys : Selector) (return_popped : Bool) :
    Except String (Dict V × Option (Dict V)) :=
  (popLoop data (resolveKeys data keys) []).map
    (fun r => (r.1, if return_popped then some r.2 else none))

/-- `filter_keys`: resolves the retain selector, computes
`keys_to_pop = [k for k in data.keys() if k not in keys]` and delegates
to `pop_keys`. -/
def filter_keys (data : Dict V) (keys : Selector) (return_popped : Bool) :
    Except String (Dict V × Option (Dict V)) :=
  let ks := resolveKeys data keys
  let keys_to_pop := (dkeys data).filter (fun k => decide (k ∉ ks))
  pop_keys data (.explicit keys_to_pop) return_popped

/-- `pop_keys` with the caller's aliasing made explicit: the argument is a
reference `r` into a heap of records, `data.pop(k)` mutates the record
stored at `r`, and the function returns the same reference it was given
(Python `return data`). -/
def pop_keys_st (heap : Nat → Dict V) (r : Nat) (keys : Selector) (return_popped : Bool) :
    Except String ((Nat → Dict V) × Nat × Option (Dict V)) :=
  (popLoop (heap r) (resolveKeys (heap r) keys) []).map
    (fun res => (Function.update heap r res.1, r, if return_popped then some res.2 else none))

/-- `filter_keys` with the caller's aliasing made explicit; delegates to
`pop_keys_st` exactly as the source delegates to `pop_keys`. -/
def filter_keys_st (heap : Nat → Dict V) (r : Nat) (keys : Selector) (return_popped : Bool) :
    Except String ((Nat → Dict V) × Nat × Option (Dict V)) :=
  let ks := resolveKeys (heap r) keys
  let keys_to_pop := (dkeys (heap r)).filter (fun k => decide (k ∉ ks))
  pop_keys_st heap r (.explicit keys_to_pop) return_popped

/-! ## Lemmas on the record model -/

theorem dlookup_dinsert_self (d : Dict V) (k : String) (v : V) :
    dlookup (dinsert d k v) k = some v := by
  induction d with
  | nil => simp [dinsert, dlookup]
  | cons e d ih =>
    obtain ⟨k', v'⟩ := e
    by_cases h : k' = k
    · simp [dinsert, h, dlookup]
    · simp [dinsert, h, dlookup, ih]

theorem dlookup_dinsert_ne (d : Dict V) (k k' : String) (v : V) (h : k ≠ k') :
    dlookup (dinsert d k v) k' = dlookup d k' := by
  induction d with
  | nil => simp [dinsert, dlookup, h]
  | cons e d ih =>
    obtain ⟨k₀, v₀⟩ := e
    by_cases h₀ : k₀ = k
    · subst h₀
      simp [dinsert, dlookup, h]
    · simp [dinsert, h₀, dlookup, ih]

theorem dlookup_derase_ne (d : Dict V) (k k' : String) (h : k ≠ k') :
    dlookup (derase d k) k' = dlookup d k' := by
  induction d with
  | nil => simp [derase]
  | cons e d ih =>
    obtain ⟨k₀, v₀⟩ := e
    by_cases h₀ : k₀ = k
    · subst h₀
      simp [derase, dlookup, h]
    · simp [derase, h₀, dlookup, ih]

theorem dlookup_eq_none_of_not_mem_dkeys (d : Dict V) (k : String)
    (h : k ∉ dkeys d) : dlookup d k = none := by
  induction d with
  | nil => rfl
  | cons e d ih =>
    obtain ⟨k₀, v₀⟩ := e
    simp only [dkeys, List.map_cons, List.mem_cons, not_or] at h
    have hne : ¬ k₀ = k := fun hh => h.1 hh.symm
    simp [dlookup, hne, ih (by simpa [dkeys] using h.2)]

theorem dlookup_derase_self (d : Dict V) (k : String)
    (hd : (dkeys d).Nodup) : dlookup (derase d k) k = none := by
  induction d with
  | nil => rfl
  | cons e d ih =>
    obtain ⟨k₀, v₀⟩ := e
    simp only [dkeys, List.map_cons, List.nodup_cons] at hd
    by_cases h₀ : k₀ = k
    · subst h₀
      simpa [derase] using dlookup_eq_none_of_not_mem_dkeys d k₀ hd.1
    · simp [derase, h₀, dlookup, ih hd.2]

theorem dkeys_derase_sublist (d : Dict V) (k : String) :
    (dkeys (derase d k)).Sublist (dkeys d) := by
  induction d with
  | nil => simp [derase]
  | cons e d ih =>
    obtain ⟨k₀, v₀⟩ := e
    by_cases h₀ : k₀ = k
    · subst h₀
      simp only [derase, if_pos, dkeys, List.map_cons]
      exact List.sublist_cons_self k₀ (dkeys d)
    · simp only [derase, h₀, if_neg, dkeys, List.map_cons]
      exact (ih).cons₂ k₀

theorem dkeys_derase_nodup (d : Dict V) (k : String)
    (hd : (dkeys d).Nodup) : (dkeys (derase d k)).Nodup :=
  (dkeys_derase_sublist d k).nodup hd

theorem dlookup_isSome_of_mem_dkeys (d : Dict V) (k : String)
    (h : k ∈ dkeys d) : (dlookup d k).isSome := by
  induction d with
  | nil => simp [dkeys] at h
  | cons e d ih =>
    obtain ⟨k₀, v₀⟩ := e
    by_cases h₀ : k₀ = k
    · simp [dlookup, h₀]
    · simp only [dkeys, List.map_cons, List.mem_cons] at h
      rcases h with h | h
      · exact absurd h.symm h₀
      · simpa [dlookup, h₀] using ih (by simpa [dkeys] using h)

theorem mem_dkeys_of_dlookup_isSome (d : Dict V) (k : String)
    (h : (dlookup d k).isSome) : k ∈ dkeys d := by
  induction d with
  | nil => simp [dlookup] at h
  | cons e d ih =>
    obtain ⟨k₀, v₀⟩ := e
    by_cases h₀ : k₀ = k
    · simp [dkeys, h₀]
    · simp only [dlookup, h₀, if_neg] at h
      simpa [dkeys] using Or.inr (by simpa [dkeys] using ih h)


/-! ## Theorems: `instance_to_semantic` (claims C9 and C1) -/

/-- Value of the masked-assignment loop at any position: a label in the
half-open window `[idx, idx + cls.length)` receives the matching class,
every other position keeps its previous value. -/
theorem i2sLoop_eq {α : Type} (inst : α → Nat) (cs : List Int) :
    ∀ (idx : Nat) (seg : α → Int) (p : α),
    i2sLoop inst cs idx seg p =
      if idx ≤ inst p ∧ inst p < idx + cs.length then cs.getD (inst p - idx) 0 else seg p := by
  induction cs with
  | nil =>
    intro idx seg p
    simp only [i2sLoop, List.length_nil, Nat.add_zero]
    rw [if_neg (by omega)]
  | cons c cs ih =>
    intro idx seg p
    simp only [i2sLoop, List.length_cons]
    rw [ih]
    by_cases h : inst p = idx
    · rw [if_neg (by omega), if_pos (by omega)]
      simp [h]
    · by_cases h2 : idx + 1 ≤ inst p ∧ inst p < idx + 1 + cs.length
      · rw [if_pos h2, if_pos (by omega)]
        have hsub : inst p - idx = (inst p - (idx + 1)) + 1 := by omega
        rw [hsub, List.getD_cons_succ]
      · rw [if_neg h2]
        simp only [h, if_false]
        rw [if_neg (by omega)]

/-- Claim C9: on a volume whose present nonzero labels are all at most
`len(classMap)`, `instance_to_semantic` maps background to `0` and every
instance label `i ≥ 1` to `classMap[i-1]`; the output indexes over the
same positions as the input (same shape by construction of the model). -/
theorem instanceToSemantic_maps_classes {α : Type} (inst : α → Nat) (cls : List Int) (p : α)
    (h : inst p ≤ cls.length) :
    instance_to_semantic inst cls p =
      if inst p = 0 then 0 else cls.getD (inst p - 1) 0 := by
  unfold instance_to_semantic
  rw [i2sLoop_eq]
  by_cases h0 : inst p = 0
  · rw [if_neg (by omega), if_pos h0]
  · rw [if_pos (by omega), if_neg h0]

/-- Witness for C9: `classMap = [5, 7]` on a volume holding labels
`n % 3`; the position with label 1 maps to class 5. -/
theorem instanceToSemantic_maps_classes_witness :
    (fun n : Nat => n % 3) 1 ≤ ([5, 7] : List Int).length ∧
    instance_to_semantic (fun n : Nat => n % 3) [5, 7] 1 =
      (if (fun n : Nat => n % 3) 1 = 0 then 0
       else ([5, 7] : List Int).getD ((fun n : Nat => n % 3) 1 - 1) 0) :=
  ⟨by decide, instanceToSemantic_maps_classes (fun n : Nat => n % 3) [5, 7] 1 (by decide)⟩

/-- Claim C1 is false on the code: `instance_to_semantic` cannot fail on
an instance label exceeding `len(classMap)` — its loop runs over the
class-map entries only, so an out-of-range label is never looked up. At
the input named by the claim (a volume holding label 3, `classMap` of
length 2) the call returns normally and the label-3 voxel holds 0. -/
theorem instanceToSemantic_label3_no_failure :
    instance_to_semantic (fun _ : Nat => 3) [5, 7] 0 = 0 := by decide

/-- Claim C1 amended: any voxel whose instance label exceeds
`len(classMap)` is silently left at the background value 0; no error is
raised. -/
theorem instanceToSemantic_out_of_range_maps_to_zero {α : Type} (inst : α → Nat)
    (cls : List Int) (p : α) (h : cls.length < inst p) :
    instance_to_semantic inst cls p = 0 := by
  unfold instance_to_semantic
  rw [i2sLoop_eq, if_neg (by omega)]

/-- Witness for the amended C1: label 3 against a class map of length 2
yields background 0. -/
theorem instanceToSemantic_out_of_range_maps_to_zero_witness :
    ([5, 7] : List Int).length < (fun _ : Nat => 3) 0 ∧
    instance_to_semantic (fun _ : Nat => 3) [5, 7] 0 = 0 :=
  ⟨by decide, instanceToSemantic_out_of_range_maps_to_zero (fun _ : Nat => 3) [5, 7] 0 (by decide)⟩

/-! ## Theorems: `box_to_seg` (claims C2 and C4) -/

/-- Frame property of the painting loop: a position covered by none of
the boxes keeps the value the buffer held when the loop started. -/
theorem boxToSegLoop_frame (bs : List (List Int)) :
    ∀ (idx : Nat) (out v : Vol), boxToSegLoop bs idx out = .ok v →
    ∀ p, (∀ b ∈ bs, boxCovers b p = false) → v p = out p := by
  induction bs with
  | nil =>
    intro idx out v h p hc
    injection h with h
    subst h
    rfl
  | cons b bs ih =>
    intro idx out v h p hc
    simp only [boxToSegLoop] at h
    split at h
    · have hv := ih (idx + 1) (paint b (idx : Int) out) v h p
        (fun b' hb' => hc b' (List.mem_cons_of_mem _ hb'))
      rw [hv]
      simp [paint, hc b (List.mem_cons_self _ _)]
    · simp at h

/-- The painting loop always succeeds when every box has 4 or 6
coordinates. -/
theorem boxToSegLoop_ok (bs : List (List Int)) :
    ∀ (idx : Nat) (out : Vol), (∀ b ∈ bs, b.length = 4 ∨ b.length = 6) →
    ∃ v, boxToSegLoop bs idx out = .ok v := by
  induction bs with
  | nil => exact fun idx out _ => ⟨out, rfl⟩
  | cons b bs ih =>
    intro idx out h
    simp only [boxToSegLoop, if_pos (h b (List.mem_cons_self _ _))]
    exact ih (idx + 1) _ (fun b' hb' => h b' (List.mem_cons_of_mem _ hb'))

/-- Claim C2 is false on the code for a reused buffer: calling
`box_to_seg` with an empty box list and a caller-supplied `out` holding 5
everywhere returns that buffer untouched — the position `(0,0)`, covered
by no box, holds 5, not 0. The `torch.zeros` call only runs when `out` is
`None`. -/
theorem boxToSeg_out_reuse_not_zeroed :
    (match box_to_seg ([] : List (List Int)) [3, 3] (some (fun _ => 5)) with
     | .ok v => v [0, 0]
     | .error _ => 0) = 5 := rfl

/-- Claim C2 amended: zero initialization happens only on the fresh
allocation. With `out = None` every position covered by no box holds 0;
with a caller-supplied `out` the buffer is not cleared, and such
positions retain its prior contents. -/
theorem boxToSeg_zero_init_only_when_fresh (boxes : List (List Int)) (shape : List Nat)
    (p : List Int) (hc : ∀ b ∈ boxes, boxCovers b p = false) :
    (∀ v, box_to_seg boxes shape none = .ok v → v p = 0) ∧
    (∀ w v, box_to_seg boxes shape (some w) = .ok v → v p = w p) := by
  constructor
  · intro v h
    exact boxToSegLoop_frame boxes 1 _ v h p hc
  · intro w v h
    exact boxToSegLoop_frame boxes 1 w v h p hc

/-- Witness for the amended C2: one box, a position outside it. -/
theorem boxToSeg_zero_init_only_when_fresh_witness :
    (∀ b ∈ [[(0 : Int), 0, 1, 1]], boxCovers b [2, 2] = false) ∧
    ((∀ v, box_to_seg [[(0 : Int), 0, 1, 1]] [3, 3] none = .ok v → v [2, 2] = 0) ∧
     (∀ w v, box_to_seg [[(0 : Int), 0, 1, 1]] [3, 3] (some w) = .ok v → v [2, 2] = w [2, 2])) :=
  ⟨by decide, boxToSeg_zero_init_only_when_fresh [[(0 : Int), 0, 1, 1]] [3, 3] [2, 2] (by decide)⟩

/-- The painted value at any position is the label of the last box that
covers it, or the starting buffer value where no box does. -/
theorem boxToSegLoop_lastCover (bs : List (List Int)) :
    ∀ (idx : Nat) (out v : Vol), 1 ≤ idx → boxToSegLoop bs idx out = .ok v →
    ∀ p, v p = if lastCover bs idx p ≠ 0 then ((lastCover bs idx p : Nat) : Int) else out p := by
  induction bs with
  | nil =>
    intro idx out v _ h p
    injection h with h
    subst h
    simp [lastCover]
  | cons b bs ih =>
    intro idx out v hidx h p
    simp only [boxToSegLoop] at h
    split at h
    · have hv := ih (idx + 1) (paint b (idx : Int) out) v (by omega) h p
      rw [hv]
      simp only [lastCover, paint]
      by_cases hr : lastCover bs (idx + 1) p ≠ 0
      · simp [hr]
      · push_neg at hr
        have hidx0 : idx ≠ 0 := by omega
        by_cases hcov : boxCovers b p
        · simp [hr, hcov, hidx0]
        · simp [hr, hcov]
    · simp at h

set_option linter.unusedVariables false in
/-- Claim C4: on a fresh zero-initialized output, every position of the
result holds the 1-based input index of the last box whose inclusive
hyper-rectangle contains it, and 0 where no box covers it. The
well-formedness and in-shape hypotheses restate the claim's assumptions
about boxes and positions; in the slice model they are not needed for
the conclusion. -/
theorem boxToSeg_last_write_wins (boxes : List (List Int)) (shape : List Nat) (p : List Int)
    (hb : ∀ b ∈ boxes, b.length = 4 ∨ b.length = 6)
    (hw : ∀ b ∈ boxes, wellFormedBox shape b = true)
    (hp : inShape shape p = true) :
    ∃ v, box_to_seg boxes shape none = .ok v ∧ v p = ((lastCover boxes 1 p : Nat) : Int) := by
  obtain ⟨v, hv⟩ := boxToSegLoop_ok boxes 1 (fun _ => 0) hb
  refine ⟨v, hv, ?_⟩
  rw [boxToSegLoop_lastCover boxes 1 _ v (le_refl 1) hv p]
  by_cases h0 : lastCover boxes 1 p ≠ 0
  · rw [if_pos h0]
  · push_neg at h0
    rw [h0]
    simp

/-- Witness for C4, the example of the claim: `boxesToSeg([(0,0,1,1)])`
on a 3×3 grid paints label 1 on rows and columns 0 and 1; at position
`(0,1)` the last (only) covering box is box 1. -/
theorem boxToSeg_last_write_wins_witness :
    (∀ b ∈ [[(0 : Int), 0, 1, 1]], b.length = 4 ∨ b.length = 6) ∧
    (∀ b ∈ [[(0 : Int), 0, 1, 1]], wellFormedBox [3, 3] b = true) ∧
    inShape [3, 3] [0, 1] = true ∧
    (∃ v, box_to_seg [[(0 : Int), 0, 1, 1]] [3, 3] none = .ok v ∧
      v [0, 1] = ((lastCover [[(0 : Int), 0, 1, 1]] 1 [0, 1] : Nat) : Int)) :=
  ⟨by decide, by decide, by decide,
    boxToSeg_last_write_wins [[(0 : Int), 0, 1, 1]] [3, 3] [0, 1]
      (by decide) (by decide) (by decide)⟩

/-! ## Theorems: `SeqToMap.forward` and `MapToSeq.forward` (claims C3 and C8) -/

/-- Assignment at a fresh key appends the entry. -/
theorem dinsert_eq_append (d : Dict V) (k : String) (v : V) (h : k ∉ dkeys d) :
    dinsert d k v = d ++ [(k, v)] := by
  induction d with
  | nil => rfl
  | cons e d ih =>
    obtain ⟨k₀, v₀⟩ := e
    simp only [dkeys, List.map_cons, List.mem_cons, not_or] at h
    have hne : ¬ k₀ = k := fun hh => h.1 hh.symm
    simp [dinsert, hne, ih (by simpa [dkeys] using h.2)]

/-- The dict-comprehension loop raises exactly when the remaining keys
outnumber the remaining tuple elements. -/
theorem seqToMapLoop_error_iff (data : List V) (ks : List String) :
    ∀ (i : Nat) (acc : Dict V), i ≤ data.length →
    ((∃ e, seqToMapLoop data ks i acc = .error e) ↔ data.length < i + ks.length) := by
  induction ks with
  | nil =>
    intro i acc hi
    constructor
    · rintro ⟨e, he⟩
      exact absurd he (by simp [seqToMapLoop])
    · intro hlen
      rw [List.length_nil] at hlen
      exact absurd hlen (by omega)
  | cons k ks ih =>
    intro i acc hi
    cases hget : data.get? i with
    | some v =>
      have hi1 : i + 1 ≤ data.length := by
        obtain ⟨hlt, -⟩ := List.get?_eq_some.mp hget
        omega
      simp only [seqToMapLoop, hget, List.length_cons]
      rw [ih (i + 1) (dinsert acc k v) hi1]
      omega
    | none =>
      have hlen : data.length ≤ i := List.get?_eq_none.mp hget
      simp only [seqToMapLoop, hget, List.length_cons]
      constructor
      · intro _
        omega
      · intro _
        exact ⟨"IndexError", rfl⟩

/-- When the keys are distinct, absent from the accumulator, and the
tuple is long enough, the loop zips the keys with the tuple tail. -/
theorem seqToMapLoop_ok_append (data : List V) (ks : List String) :
    ∀ (i : Nat) (acc : Dict V), ks.Nodup → (∀ k ∈ ks, k ∉ dkeys acc) →
    i + ks.length ≤ data.length →
    seqToMapLoop data ks i acc = .ok (acc ++ ks.zip (data.drop i)) := by
  induction ks with
  | nil =>
    intro i acc _ _ _
    simp [seqToMapLoop]
  | cons k ks ih =>
    intro i acc hnd hfresh hlen
    simp only [List.length_cons] at hlen
    have hi : i < data.length := by omega
    cases hget : data.get? i with
    | none => exact absurd (List.get?_eq_none.mp hget) (by omega)
    | some v =>
      simp only [seqToMapLoop, hget]
      rw [dinsert_eq_append acc k v (hfresh k (List.mem_cons_self _ _))]
      have hfresh2 : ∀ k' ∈ ks, k' ∉ dkeys (acc ++ [(k, v)]) := by
        intro k' hk'
        have hne : k' ≠ k := by
          intro hh
          exact (List.nodup_cons.mp hnd).1 (hh ▸ hk')
        have hkeys : dkeys (acc ++ [(k, v)]) = dkeys acc ++ [k] := by simp [dkeys]
        rw [hkeys]
        simp [hfresh k' (List.mem_cons_of_mem _ hk'), hne]
      rw [ih (i + 1) (acc ++ [(k, v)]) hnd.of_cons hfresh2 (by omega)]
      have hdrop : data.drop i = v :: data.drop (i + 1) := by
        obtain ⟨hlt, hval⟩ := List.get?_eq_some.mp hget
        rw [List.drop_eq_getElem_cons hlt]
        have hval2 : data[i] = v := hval
        rw [hval2]
      rw [hdrop, List.zip_cons_cons, List.append_assoc]
      rfl

/-- Claim C3 is false on the code in the "only if" direction: a tuple
longer than the key list raises nothing — `SeqToMap.forward(("a",), (1, 2))`
returns the record with the extra element silently ignored, although the
lengths differ. -/
theorem seqToMap_longer_tuple_no_error :
    SeqToMap.forward ["a"] [1, 2] = Except.ok [("a", 1)] := rfl

/-- Claim C3 amended: `SeqToMap.forward` fails (with an index error, the
concrete error the dict comprehension raises) if and only if the tuple is
shorter than the key list; when it is at least as long, the record maps
the i-th key to the i-th tuple element and ignores the extra elements. -/
theorem seqToMap_error_iff_short {V : Type} (keys : List String) (data : List V)
    (hnd : keys.Nodup) :
    ((∃ e, SeqToMap.forward keys data = .error e) ↔ data.length < keys.length) ∧
    (keys.length ≤ data.length → SeqToMap.forward keys data = .ok (keys.zip data)) := by
  constructor
  · have h := seqToMapLoop_error_iff data keys 0 [] (Nat.zero_le _)
    simpa [SeqToMap.forward] using h
  · intro hlen
    have h := seqToMapLoop_ok_append data keys 0 [] hnd (by simp [dkeys]) (by omega)
    simpa [SeqToMap.forward] using h

/-- Witness for the amended C3: two keys against a three-element tuple —
no failure, the third element is dropped. -/
theorem seqToMap_error_iff_short_witness :
    (["a", "b"] : List String).Nodup ∧
    (((∃ e, SeqToMap.forward ["a", "b"] [10, 20, 30] = .error e) ↔
        ([10, 20, 30] : List Nat).length < (["a", "b"] : List String).length) ∧
     ((["a", "b"] : List String).length ≤ ([10, 20, 30] : List Nat).length →
        SeqToMap.forward ["a", "b"] [10, 20, 30] = .ok (["a", "b"].zip [10, 20, 30]))) :=
  ⟨by decide, seqToMap_error_iff_short ["a", "b"] [10, 20, 30] (by decide)⟩

/-- Lookup in the record built by the dict-comprehension loop, when the
tuple elements lined up with the keys all agree with a per-key value `g`
(so duplicate keys are harmless): selected keys read `g`, the rest fall
through to the accumulator. -/
theorem seqToMapLoop_dlookup (data : List V) (g : String → Option V) (ks : List String) :
    ∀ (i : Nat) (acc : Dict V),
    (∀ j, (hj : j < ks.length) →
      data.get? (i + j) = g (ks.get ⟨j, hj⟩) ∧ (data.get? (i + j)).isSome) →
    ∀ rec, seqToMapLoop data ks i acc = .ok rec →
    ∀ k, dlookup rec k = if k ∈ ks then g k else dlookup acc k := by
  induction ks with
  | nil =>
    intro i acc _ rec hrec k
    injection hrec with hrec
    subst hrec
    simp
  | cons k₀ ks ih =>
    intro i acc hg rec hrec k
    obtain ⟨h0g, h0s⟩ := hg 0 (by simp)
    rw [Option.isSome_iff_exists] at h0s
    obtain ⟨v, hv⟩ := h0s
    rw [Nat.add_zero] at h0g hv
    simp only [seqToMapLoop, hv] at hrec
    have hg2 : ∀ j, (hj : j < ks.length) →
        data.get? (i + 1 + j) = g (ks.get ⟨j, hj⟩) ∧ (data.get? (i + 1 + j)).isSome := by
      intro j hj
      have h := hg (j + 1) (by simpa using Nat.succ_lt_succ hj)
      rw [show i + (j + 1) = i + 1 + j by omega] at h
      exact h
    have hstep := ih (i + 1) (dinsert acc k₀ v) hg2 rec hrec k
    rw [hstep]
    by_cases hks : k ∈ ks
    · rw [if_pos hks, if_pos (List.mem_cons_of_mem _ hks)]
    · by_cases hk0 : k = k₀
      · subst hk0
        have h0g2 : data.get? i = g k := h0g
        rw [if_neg hks, dlookup_dinsert_self, if_pos (List.mem_cons_self _ _), ← h0g2, hv]
      · rw [if_neg hks, dlookup_dinsert_ne acc k₀ k v (fun hh => hk0 hh.symm),
          if_neg (by simp [hks, hk0])]

/-- `MapToSeq.forward` succeeds when every key is present and returns the
tuple of looked-up values, in key order. -/
theorem mapToSeq_ok (keys : List String) (r : Dict V) :
    (∀ k ∈ keys, (dlookup r k).isSome) →
    ∃ t, MapToSeq.forward keys r = .ok t ∧ t.length = keys.length ∧
      ∀ j, (hj : j < keys.length) → t.get? j = dlookup r (keys.get ⟨j, hj⟩) := by
  induction keys with
  | nil =>
    intro _
    exact ⟨[], rfl, rfl, fun j hj => absurd hj (by simp)⟩
  | cons k ks ih =>
    intro h
    have hk := h k (List.mem_cons_self _ _)
    rw [Option.isSome_iff_exists] at hk
    obtain ⟨v, hv⟩ := hk
    obtain ⟨t, ht, hlen, hget⟩ := ih (fun k' hk' => h k' (List.mem_cons_of_mem _ hk'))
    refine ⟨v :: t, ?_, by simp [hlen], ?_⟩
    · simp [MapToSeq.forward, hv, ht, Except.map]
    · intro j hj
      cases j with
      | zero => simpa using hv.symm
      | succ j => simpa using hget j (by simpa using hj)

/-- Claim C8, the round-trip law: for a record containing all the keys,
encoding to a tuple and decoding with the same keys yields exactly the
sub-record over those keys. -/
theorem roundTrip_toRecord_toSequence {V : Type} (r : Dict V) (keys : List String)
    (h : ∀ k ∈ keys, (dlookup r k).isSome) :
    ∃ t rec, MapToSeq.forward keys r = .ok t ∧ SeqToMap.forward keys t = .ok rec ∧
      ∀ k, dlookup rec k = if k ∈ keys then dlookup r k else none := by
  obtain ⟨t, ht, hlen, hget⟩ := mapToSeq_ok keys r h
  cases hrec : SeqToMap.forward keys t with
  | error e =>
    exfalso
    have herr := (seqToMapLoop_error_iff t keys 0 [] (Nat.zero_le _)).mp ⟨e, hrec⟩
    omega
  | ok rec =>
    refine ⟨t, rec, ht, hrec, ?_⟩
    intro k
    have hlk := seqToMapLoop_dlookup t (fun k' => dlookup r k') keys 0 []
      (fun j hj => ⟨by simpa using hget j hj,
        by rw [Nat.zero_add, hget j hj]; exact h _ (List.get_mem keys j hj)⟩)
      rec hrec k
    simpa using hlk

/-- Witness for C8 on a concrete record and key list. -/
theorem roundTrip_toRecord_toSequence_witness :
    (∀ k ∈ ["b", "a"], (dlookup [("a", 1), ("b", 2), ("c", 3)] k).isSome) ∧
    (∃ t rec, MapToSeq.forward ["b", "a"] [("a", 1), ("b", 2), ("c", 3)] = .ok t ∧
      SeqToMap.forward ["b", "a"] t = .ok rec ∧
      ∀ k, dlookup rec k =
        if k ∈ ["b", "a"] then dlookup [("a", 1), ("b", 2), ("c", 3)] k else none) :=
  ⟨by decide, roundTrip_toRecord_toSequence [("a", 1), ("b", 2), ("c", 3)] ["b", "a"] (by decide)⟩

/-! ## Theorems: `pop_keys` and `filter_keys` (claims C7 and C10) -/

/-- The pop loop, on distinct keys that are all present: it succeeds, the
popped record reads the original values on the selected keys, and the
remaining record loses exactly those keys. -/
theorem popLoop_spec (K : List String) :
    ∀ (d popped : Dict V), (dkeys d).Nodup → K.Nodup → (∀ k ∈ K, k ∈ dkeys d) →
    ∃ rem pop, popLoop d K popped = .ok (rem, pop) ∧
      (∀ k, dlookup pop k = if k ∈ K then dlookup d k else dlookup popped k) ∧
      (∀ k, dlookup rem k = if k ∈ K then none else dlookup d k) := by
  induction K with
  | nil =>
    intro d popped _ _ _
    exact ⟨d, popped, rfl, fun k => by simp, fun k => by simp⟩
  | cons k₀ K ih =>
    intro d popped hd hK hsub
    have hk₀ := dlookup_isSome_of_mem_dkeys d k₀ (hsub k₀ (List.mem_cons_self _ _))
    rw [Option.isSome_iff_exists] at hk₀
    obtain ⟨v, hv⟩ := hk₀
    have hK0 : k₀ ∉ K := (List.nodup_cons.mp hK).1
    have hsub2 : ∀ k ∈ K, k ∈ dkeys (derase d k₀) := by
      intro k hk
      have hne : ¬ k₀ = k := fun hh => hK0 (by rw [hh]; exact hk)
      apply mem_dkeys_of_dlookup_isSome
      rw [dlookup_derase_ne d k₀ k hne]
      exact dlookup_isSome_of_mem_dkeys d k (hsub k (List.mem_cons_of_mem _ hk))
    obtain ⟨rem, pop, hloop, hpop, hrem⟩ :=
      ih (derase d k₀) (dinsert popped k₀ v) (dkeys_derase_nodup d k₀ hd) hK.of_cons hsub2
    refine ⟨rem, pop, ?_, ?_, ?_⟩
    · simp only [popLoop, dpop, hv]
      exact hloop
    · intro k
      rw [hpop k]
      by_cases hk : k ∈ K
      · have hne : ¬ k₀ = k := fun hh => hK0 (by rw [hh]; exact hk)
        rw [if_pos hk, if_pos (List.mem_cons_of_mem _ hk), dlookup_derase_ne d k₀ k hne]
      · by_cases hk0 : k = k₀
        · subst hk0
          rw [if_neg hk, if_pos (List.mem_cons_self _ _), dlookup_dinsert_self, hv]
        · rw [if_neg hk, if_neg (by simp [hk, hk0]),
            dlookup_dinsert_ne popped k₀ k v (fun hh => hk0 hh.symm)]
    · intro k
      rw [hrem k]
      by_cases hk : k ∈ K
      · rw [if_pos hk, if_pos (List.mem_cons_of_mem _ hk)]
      · by_cases hk0 : k = k₀
        · subst hk0
          rw [if_neg hk, if_pos (List.mem_cons_self _ _), dlookup_derase_self d k hd]
        · rw [if_neg hk, if_neg (by simp [hk, hk0]),
            dlookup_derase_ne d k₀ k (fun hh => hk0 hh.symm)]

/-- Claim C7: `pop_keys` with `return_popped` on an explicit key set `K`
contained in the record keys returns `(remaining, removed)` with
`removed` the restriction of the record to `K`, the two key sets
disjoint, and their union the original key set. -/
theorem popKeys_partition {V : Type} (r : Dict V) (K : List String)
    (hr : (dkeys r).Nodup) (hK : K.Nodup) (hsub : ∀ k ∈ K, k ∈ dkeys r) :
    ∃ rem pop, pop_keys r (.explicit K) true = .ok (rem, some pop) ∧
      (∀ k, dlookup pop k = if k ∈ K then dlookup r k else none) ∧
      (∀ k, dlookup rem k = if k ∈ K then none else dlookup r k) ∧
      (∀ k, ((dlookup rem k).isSome ∨ (dlookup pop k).isSome) ↔ (dlookup r k).isSome) ∧
      (∀ k, ¬ ((dlookup rem k).isSome ∧ (dlookup pop k).isSome)) := by
  obtain ⟨rem, pop, hloop, hpop, hrem⟩ := popLoop_spec K r [] hr hK hsub
  have hpop2 : ∀ k, dlookup pop k = if k ∈ K then dlookup r k else none := by
    intro k
    rw [hpop k]
    by_cases hk : k ∈ K
    · simp [hk]
    · simp [hk, dlookup]
  refine ⟨rem, pop, ?_, hpop2, hrem, ?_, ?_⟩
  · simp [pop_keys, resolveKeys, hloop, Except.map]
  · intro k
    rw [hrem k, hpop2 k]
    by_cases hk : k ∈ K
    · simp [hk]
    · simp [hk]
  · intro k
    rw [hrem k, hpop2 k]
    by_cases hk : k ∈ K
    · simp [hk]
    · simp [hk]

/-- Witness for C7 on a concrete record and key set. -/
theorem popKeys_partition_witness :
    (dkeys [("a", 1), ("b", 2)]).Nodup ∧ (["b"] : List String).Nodup ∧
    (∀ k ∈ ["b"], k ∈ dkeys [("a", 1), ("b", 2)]) ∧
    (∃ rem pop, pop_keys [("a", 1), ("b", 2)] (.explicit ["b"]) true = .ok (rem, some pop) ∧
      (∀ k, dlookup pop k = if k ∈ ["b"] then dlookup [("a", 1), ("b", 2)] k else none) ∧
      (∀ k, dlookup rem k = if k ∈ ["b"] then none else dlookup [("a", 1), ("b", 2)] k) ∧
      (∀ k, ((dlookup rem k).isSome ∨ (dlookup pop k).isSome) ↔
        (dlookup [("a", 1), ("b", 2)] k).isSome) ∧
      (∀ k, ¬ ((dlookup rem k).isSome ∧ (dlookup pop k).isSome))) :=
  ⟨by decide, by decide, by decide,
    popKeys_partition [("a", 1), ("b", 2)] ["b"] (by decide) (by decide) (by decide)⟩

/-- Successful `pop_keys_st` without `return_popped`: the heap cell at
the argument reference is replaced by the shrunk record and that same
reference is returned, with no popped data. -/
theorem pop_keys_st_ok (heap : Nat → Dict V) (r : Nat) (sel : Selector) (rem pop : Dict V)
    (h : popLoop (heap r) (resolveKeys (heap r) sel) [] = .ok (rem, pop)) :
    pop_keys_st heap r sel false = .ok (Function.update heap r rem, r, none) := by
  simp [pop_keys_st, h, Except.map]

/-- Claim C10: `pop_keys` and `filter_keys` mutate the caller's record in
place. In the explicit-heap embedding: the reference coming back is the
argument reference itself, the record it denotes has lost exactly the
removed entries (for `filter_keys`, everything outside the retain
selector), every other heap cell is untouched, and with
`return_popped = False` the removed entries are not returned at all. -/
theorem popKeys_filterKeys_in_place {V : Type} (heap : Nat → Dict V) (r : Nat) (sel : Selector)
    (hr : (dkeys (heap r)).Nodup)
    (hnd : (resolveKeys (heap r) sel).Nodup)
    (hsub : ∀ k ∈ resolveKeys (heap r) sel, k ∈ dkeys (heap r)) :
    (∃ h2, pop_keys_st heap r sel false = .ok (h2, r, none) ∧
      (∀ q, q ≠ r → h2 q = heap q) ∧
      (∀ k, dlookup (h2 r) k =
        if k ∈ resolveKeys (heap r) sel then none else dlookup (heap r) k)) ∧
    (∃ h3, filter_keys_st heap r sel false = .ok (h3, r, none) ∧
      (∀ q, q ≠ r → h3 q = heap q) ∧
      (∀ k, dlookup (h3 r) k =
        if k ∈ resolveKeys (heap r) sel then dlookup (heap r) k else none)) := by
  constructor
  · obtain ⟨rem, pop, hloop, hpop, hrem⟩ :=
      popLoop_spec (resolveKeys (heap r) sel) (heap r) [] hr hnd hsub
    refine ⟨Function.update heap r rem, pop_keys_st_ok heap r sel rem pop hloop, ?_, ?_⟩
    · intro q hq
      exact Function.update_noteq hq rem heap
    · intro k
      rw [Function.update_same]
      exact hrem k
  · have hsub2 : ∀ k ∈ (dkeys (heap r)).filter
        (fun k => decide (k ∉ resolveKeys (heap r) sel)), k ∈ dkeys (heap r) :=
      fun k hk => (List.mem_filter.mp hk).1
    obtain ⟨rem, pop, hloop, hpop, hrem⟩ :=
      popLoop_spec ((dkeys (heap r)).filter (fun k => decide (k ∉ resolveKeys (heap r) sel)))
        (heap r) [] hr (hr.filter _) hsub2
    have hfe : filter_keys_st heap r sel false =
        pop_keys_st heap r
          (.explicit ((dkeys (heap r)).filter (fun k => decide (k ∉ resolveKeys (heap r) sel))))
          false := rfl
    refine ⟨Function.update heap r rem, ?_, ?_, ?_⟩
    · rw [hfe]
      exact pop_keys_st_ok heap r _ rem pop hloop
    · intro q hq
      exact Function.update_noteq hq rem heap
    · intro k
      rw [Function.update_same, hrem k]
      by_cases hkk : k ∈ resolveKeys (heap r) sel
      · have hnotpop : k ∉ (dkeys (heap r)).filter
            (fun k => decide (k ∉ resolveKeys (heap r) sel)) := by
          simp [List.mem_filter, hkk]
        rw [if_neg hnotpop, if_pos hkk]
      · by_cases hmem : k ∈ dkeys (heap r)
        · have hinpop : k ∈ (dkeys (heap r)).filter
              (fun k => decide (k ∉ resolveKeys (heap r) sel)) := by
            simp [List.mem_filter, hkk, hmem]
          rw [if_pos hinpop, if_neg hkk]
        · have hnotpop : k ∉ (dkeys (heap r)).filter
              (fun k => decide (k ∉ resolveKeys (heap r) sel)) :=
            fun hh => hmem (hsub2 k hh)
          rw [if_neg hnotpop, if_neg hkk]
          exact dlookup_eq_none_of_not_mem_dkeys (heap r) k hmem

/-- Witness for C10 on a concrete heap, reference and selector. -/
theorem popKeys_filterKeys_in_place_witness :
    (dkeys ((fun _ : Nat => [("a", 1), ("b", 2)]) 0)).Nodup ∧
    (resolveKeys ((fun _ : Nat => [("a", 1), ("b", 2)]) 0) (.explicit ["b"])).Nodup ∧
    (∀ k ∈ resolveKeys ((fun _ : Nat => [("a", 1), ("b", 2)]) 0) (.explicit ["b"]),
      k ∈ dkeys ((fun _ : Nat => [("a", 1), ("b", 2)]) 0)) ∧
    ((∃ h2, pop_keys_st (fun _ : Nat => [("a", 1), ("b", 2)]) 0 (.explicit ["b"]) false =
        .ok (h2, 0, none) ∧
      (∀ q, q ≠ 0 → h2 q = (fun _ : Nat => [("a", 1), ("b", 2)]) q) ∧
      (∀ k, dlookup (h2 0) k =
        if k ∈ resolveKeys ((fun _ : Nat => [("a", 1), ("b", 2)]) 0) (.explicit ["b"]) then none
        else dlookup ((fun _ : Nat => [("a", 1), ("b", 2)]) 0) k)) ∧
     (∃ h3, filter_keys_st (fun _ : Nat => [("a", 1), ("b", 2)]) 0 (.explicit ["b"]) false =
        .ok (h3, 0, none) ∧
      (∀ q, q ≠ 0 → h3 q = (fun _ : Nat => [("a", 1), ("b", 2)]) q) ∧
      (∀ k, dlookup (h3 0) k =
        if k ∈ resolveKeys ((fun _ : Nat => [("a", 1), ("b", 2)]) 0) (.explicit ["b"]) then
          dlookup ((fun _ : Nat => [("a", 1), ("b", 2)]) 0) k
        else none))) :=
  ⟨by decide, by decide, by decide,
    popKeys_filterKeys_in_place (fun _ : Nat => [("a", 1), ("b", 2)]) 0 (.explicit ["b"])
      (by decide) (by decide) (by decide)⟩

/-! ## Theorems: `seg_to_box` (claims C5 and C6) -/

/-- Entry `a` of a `zipWith`, below both lengths. -/
theorem zipWith_getD (f : Nat → Nat → Nat) :
    ∀ (xs ys : List Nat) (a : Nat), a < xs.length → a < ys.length →
    (List.zipWith f xs ys).getD a 0 = f (xs.getD a 0) (ys.getD a 0) := by
  intro xs
  induction xs with
  | nil =>
    intro ys a ha _
    simp at ha
  | cons x xs ih =>
    intro ys a ha hb
    cases ys with
    | nil => simp at hb
    | cons y ys =>
      cases a with
      | zero => simp [List.zipWith]
      | succ a =>
        simp only [List.zipWith, List.getD_cons_succ]
        exact ih ys a (by simpa using ha) (by simpa using hb)

/-- The componentwise fold keeps the accumulator length when all rows
have that length. -/
theorem zipfold_length (f : Nat → Nat → Nat) (rest : List (List Nat)) :
    ∀ (acc : List Nat), (∀ q ∈ rest, q.length = acc.length) →
    (rest.foldl (fun x q => List.zipWith f x q) acc).length = acc.length := by
  induction rest with
  | nil =>
    intro acc _
    rfl
  | cons q rest ih =>
    intro acc h
    have hq : q.length = acc.length := h q (List.mem_cons_self _ _)
    have hzip : (List.zipWith f acc q).length = acc.length := by
      simp [List.length_zipWith, hq]
    simp only [List.foldl_cons]
    calc (rest.foldl (fun x q => List.zipWith f x q) (List.zipWith f acc q)).length
        = (List.zipWith f acc q).length := by
          refine ih _ ?_
          intro q' hq'
          rw [hzip]
          exact h q' (List.mem_cons_of_mem _ hq')
      _ = acc.length := hzip

/-- Projecting one axis out of the componentwise fold gives the scalar
fold of the projections. -/
theorem zipfold_getD (f : Nat → Nat → Nat) (rest : List (List Nat)) :
    ∀ (acc : List Nat) (a : Nat), (∀ q ∈ rest, q.length = acc.length) → a < acc.length →
    (rest.foldl (fun x q => List.zipWith f x q) acc).getD a 0 =
      (rest.map (fun q => q.getD a 0)).foldl f (acc.getD a 0) := by
  induction rest with
  | nil =>
    intro acc a _ _
    rfl
  | cons q rest ih =>
    intro acc a h ha
    have hq : q.length = acc.length := h q (List.mem_cons_self _ _)
    have hzipLen : (List.zipWith f acc q).length = acc.length := by
      simp [List.length_zipWith, hq]
    simp only [List.foldl_cons, List.map_cons]
    rw [ih (List.zipWith f acc q) a
      (fun q' hq' => by rw [hzipLen]; exact h q' (List.mem_cons_of_mem _ hq'))
      (by rw [hzipLen]; exact ha)]
    rw [zipWith_getD f acc q a ha (by rw [hq]; exact ha)]

/-- Length and per-axis value of a successful componentwise reduction. -/
theorem compReduce_getD (f : Nat → Nat → Nat) (p : List Nat) (rest : List (List Nat))
    (dim : Nat) (hp : p.length = dim) (hrest : ∀ q ∈ rest, q.length = dim) (m : List Nat)
    (hm : compReduce f (p :: rest) = some m) :
    m.length = dim ∧ ∀ a, a < dim →
      m.getD a 0 = (rest.map (fun q => q.getD a 0)).foldl f (p.getD a 0) := by
  have hm2 : m = rest.foldl (fun x q => List.zipWith f x q) p := by
    simp only [compReduce, Option.some_inj] at hm
    exact hm.symm
  subst hm2
  have hrest2 : ∀ q ∈ rest, q.length = p.length := fun q hq => by rw [hrest q hq, hp]
  refine ⟨?_, ?_⟩
  · rw [zipfold_length f rest p hrest2, hp]
  · intro a ha
    exact zipfold_getD f rest p a hrest2 (by omega)

/-- The implementation box for one instance equals the specification box:
componentwise minima and maxima laid out in encode order. -/
theorem mkBox_eq_specBox (seg : List Cell) (dim idx : Nat) (hdim : dim = 2 ∨ dim = 3)
    (p : List Nat) (rest : List (List Nat)) (hpos : positionsOf seg idx = p :: rest)
    (mins maxs : List Nat)
    (hminsLen : mins.length = dim)
    (hminsGet : ∀ a, a < dim →
      mins.getD a 0 = (rest.map (fun q => q.getD a 0)).foldl min (p.getD a 0))
    (hmaxsLen : maxs.length = dim)
    (hmaxsGet : ∀ a, a < dim →
      maxs.getD a 0 = (rest.map (fun q => q.getD a 0)).foldl max (p.getD a 0)) :
    mkBox dim mins maxs = specBox seg dim idx := by
  have hlo : ∀ a, a < dim → mins.getD a 0 = specLo seg idx a := by
    intro a ha
    rw [hminsGet a ha]
    unfold specLo
    rw [hpos]
    rfl
  have hhi : ∀ a, a < dim → maxs.getD a 0 = specHi seg idx a := by
    intro a ha
    rw [hmaxsGet a ha]
    unfold specHi
    rw [hpos]
    rfl
  rcases hdim with h2 | h3
  · subst h2
    obtain ⟨m0, m1, rfl⟩ := List.length_eq_two.mp hminsLen
    obtain ⟨M0, M1, rfl⟩ := List.length_eq_two.mp hmaxsLen
    have e0 := hlo 0 (by omega)
    have e1 := hlo 1 (by omega)
    have f0 := hhi 0 (by omega)
    have f1 := hhi 1 (by omega)
    simp only [List.getD_cons_zero, List.getD_cons_succ] at e0 e1 f0 f1
    rw [show mkBox 2 [m0, m1] [M0, M1] = [m0, m1, M0, M1] from rfl]
    rw [show specBox seg 2 idx =
      [specLo seg idx 0, specLo seg idx 1, specHi seg idx 0, specHi seg idx 1] from rfl]
    rw [e0, e1, f0, f1]
  · subst h3
    obtain ⟨m0, m1, m2, rfl⟩ := List.length_eq_three.mp hminsLen
    obtain ⟨M0, M1, M2, rfl⟩ := List.length_eq_three.mp hmaxsLen
    have e0 := hlo 0 (by omega)
    have e1 := hlo 1 (by omega)
    have e2 := hlo 2 (by omega)
    have f0 := hhi 0 (by omega)
    have f1 := hhi 1 (by omega)
    have f2 := hhi 2 (by omega)
    simp only [List.getD_cons_zero, List.getD_cons_succ] at e0 e1 e2 f0 f1 f2
    rw [show mkBox 3 [m0, m1, m2] [M0, M1, M2] = [m0, m1, M0, M1, m2, M2] from rfl]
    rw [show specBox seg 3 idx =
      [specLo seg idx 0, specLo seg idx 1, specHi seg idx 0, specHi seg idx 1,
       specLo seg idx 2, specHi seg idx 2] from rfl]
    rw [e0, e1, e2, f0, f1, f2]

/-- Every coordinate vector occupied by some label of `seg` has the
dimensionality of the volume. -/
theorem positionsOf_length (seg : List Cell) (dim idx : Nat)
    (hlen : ∀ c ∈ seg, c.1.length = dim) :
    ∀ q ∈ positionsOf seg idx, q.length = dim := by
  intro q hq
  simp only [positionsOf, List.mem_map] at hq
  obtain ⟨c, hc, rfl⟩ := hq
  exact hlen c (List.mem_of_mem_filter hc)

/-- The decode loop over `n` labels starting at `idx`, when each of those
labels occupies at least one position: it returns one specification box
per label, in label order. -/
theorem segToBoxLoop_spec (seg : List Cell) (dim : Nat)
    (hdim : dim = 2 ∨ dim = 3) (hlen : ∀ c ∈ seg, c.1.length = dim) :
    ∀ (n idx : Nat), (∀ k, idx ≤ k → k < idx + n → positionsOf seg k ≠ []) →
    ∃ bs, segToBoxLoop seg dim idx n = .ok bs ∧ bs.length = n ∧
      ∀ j, j < n → bs.getD j [] = specBox seg dim (idx + j) := by
  intro n
  induction n with
  | zero =>
    intro idx _
    exact ⟨[], rfl, rfl, fun j hj => absurd hj (by omega)⟩
  | succ n ih =>
    intro idx hne
    cases hpos : positionsOf seg idx with
    | nil => exact absurd hpos (hne idx (le_refl idx) (by omega))
    | cons p rest =>
      have hp : p.length = dim := positionsOf_length seg dim idx hlen p
        (by rw [hpos]; exact List.mem_cons_self _ _)
      have hrest : ∀ q ∈ rest, q.length = dim := fun q hq =>
        positionsOf_length seg dim idx hlen q (by rw [hpos]; exact List.mem_cons_of_mem _ hq)
      obtain ⟨minsLen, minsGet⟩ := compReduce_getD min p rest dim hp hrest
        (rest.foldl (fun x q => List.zipWith min x q) p) rfl
      obtain ⟨maxsLen, maxsGet⟩ := compReduce_getD max p rest dim hp hrest
        (rest.foldl (fun x q => List.zipWith max x q) p) rfl
      obtain ⟨bs, hbs, hbslen, hbsget⟩ := ih (idx + 1) (fun k h1 h2 => hne k (by omega) (by omega))
      refine ⟨mkBox dim (rest.foldl (fun x q => List.zipWith min x q) p)
        (rest.foldl (fun x q => List.zipWith max x q) p) :: bs, ?_, by simp [hbslen], ?_⟩
      · simp only [segToBoxLoop, hpos, compReduce]
        rw [hbs]
        rfl
      · intro j hj
        cases j with
        | zero =>
          simp only [List.getD_cons_zero, Nat.add_zero]
          exact mkBox_eq_specBox seg dim idx hdim p rest hpos _ _ minsLen minsGet maxsLen maxsGet
        | succ j =>
          simp only [List.getD_cons_succ]
          rw [hbsget j (by omega)]
          congr 1
          omega

/-- Claim C5: when every label `1..max(seg)` occupies at least one
position, `seg_to_box` returns exactly `max(seg)` boxes, the box at
0-based position `i` holding the componentwise minima and maxima of the
positions of label `i+1`, with 4 coordinates for 2 spatial dimensions and
6 for 3, in the encode coordinate order. -/
theorem segToBox_componentwise_minmax (seg : List Cell) (dim : Nat)
    (hdim : dim = 2 ∨ dim = 3)
    (hlen : ∀ c ∈ seg, c.1.length = dim)
    (hne : ∀ k, 1 ≤ k → k ≤ segMax seg → positionsOf seg k ≠ []) :
    ∃ boxes, seg_to_box seg dim = .ok boxes ∧ boxes.length = segMax seg ∧
      ∀ i, i < segMax seg → boxes.getD i [] = specBox seg dim (i + 1) := by
  obtain ⟨bs, hbs, hbslen, hbsget⟩ := segToBoxLoop_spec seg dim hdim hlen (segMax seg) 1
    (fun k h1 h2 => hne k h1 (by omega))
  refine ⟨bs, hbs, hbslen, ?_⟩
  intro i hi
  rw [hbsget i hi]
  congr 1
  omega

/-- Witness for C5: a 2D volume with two cells of label 1 and one cell
of label 2. -/
theorem segToBox_componentwise_minmax_witness :
    ((2 : Nat) = 2 ∨ (2 : Nat) = 3) ∧
    (∀ c ∈ ([([0, 0], 1), ([0, 1], 1), ([1, 1], 2)] : List Cell), c.1.length = 2) ∧
    (∀ k, 1 ≤ k → k ≤ segMax ([([0, 0], 1), ([0, 1], 1), ([1, 1], 2)] : List Cell) →
      positionsOf ([([0, 0], 1), ([0, 1], 1), ([1, 1], 2)] : List Cell) k ≠ []) ∧
    (∃ boxes, seg_to_box ([([0, 0], 1), ([0, 1], 1), ([1, 1], 2)] : List Cell) 2 = .ok boxes ∧
      boxes.length = segMax ([([0, 0], 1), ([0, 1], 1), ([1, 1], 2)] : List Cell) ∧
      ∀ i, i < segMax ([([0, 0], 1), ([0, 1], 1), ([1, 1], 2)] : List Cell) →
        boxes.getD i [] = specBox ([([0, 0], 1), ([0, 1], 1), ([1, 1], 2)] : List Cell) 2 (i + 1)) :=
  ⟨Or.inl rfl, by decide,
   by
     intro k h1 h2
     have hk : k = 1 ∨ k = 2 := by
       have : segMax ([([0, 0], 1), ([0, 1], 1), ([1, 1], 2)] : List Cell) = 2 := rfl
       omega
     rcases hk with rfl | rfl <;> decide,
   segToBox_componentwise_minmax ([([0, 0], 1), ([0, 1], 1), ([1, 1], 2)] : List Cell) 2
     (Or.inl rfl) (by decide)
     (by
       intro k h1 h2
       have hk : k = 1 ∨ k = 2 := by
         have : segMax ([([0, 0], 1), ([0, 1], 1), ([1, 1], 2)] : List Cell) = 2 := rfl
         omega
       rcases hk with rfl | rfl <;> decide)⟩

/-- The decode loop raises as soon as its label range contains a label
with no occupied positions. -/
theorem segToBoxLoop_error (seg : List Cell) (dim : Nat) :
    ∀ (n idx : Nat), (∃ k, idx ≤ k ∧ k < idx + n ∧ positionsOf seg k = []) →
    ∃ msg, segToBoxLoop seg dim idx n = .error msg := by
  intro n
  induction n with
  | zero =>
    rintro idx ⟨k, h1, h2, -⟩
    exact absurd h2 (by omega)
  | succ n ih =>
    rintro idx ⟨k, h1, h2, h3⟩
    by_cases hidx : positionsOf seg idx = []
    · exact ⟨"cannot perform reduction over dimension of size 0",
        by simp [segToBoxLoop, hidx, compReduce]⟩
    · have hk : ¬ k = idx := fun hh => hidx (by rw [← hh]; exact h3)
      obtain ⟨msg, hmsg⟩ := ih (idx + 1) ⟨k, by omega, by omega, h3⟩
      cases hps : positionsOf seg idx with
      | nil => exact absurd hps hidx
      | cons p rest =>
        exact ⟨msg, by simp [segToBoxLoop, hps, compReduce, hmsg, Except.map]⟩

/-- Claim C6: if some label in `1..max(seg)` occupies no position,
`seg_to_box` fails (the reduction over the empty `nonzero` result raises)
instead of returning boxes. -/
theorem segToBox_empty_instance_error (seg : List Cell) (dim : Nat)
    (h : ∃ k, 1 ≤ k ∧ k ≤ segMax seg ∧ positionsOf seg k = []) :
    ∃ msg, seg_to_box seg dim = .error msg := by
  obtain ⟨k, h1, h2, h3⟩ := h
  exact segToBoxLoop_error seg dim (segMax seg) 1 ⟨k, h1, by omega, h3⟩

/-- Witness for C6: a volume whose only cell holds label 2, so label 1
is in range but empty. -/
theorem segToBox_empty_instance_error_witness :
    (∃ k, 1 ≤ k ∧ k ≤ segMax ([([0, 0], 2)] : List Cell) ∧
      positionsOf ([([0, 0], 2)] : List Cell) k = []) ∧
    (∃ msg, seg_to_box ([([0, 0], 2)] : List Cell) 2 = .error msg) :=
  ⟨⟨1, by decide, by decide, by decide⟩,
   segToBox_empty_instance_error ([([0, 0], 2)] : List Cell) 2 ⟨1, by decide, by decide, by decide⟩⟩

end Rising
